import Mathlib

/-!
# Verification of the sfsSecStore secure-storage engine

The repository exposes the legacy SFS secure-storage interface
(`src/components/sfsSecStore/public/sfsSecStore.h`): `sfsSecStore_Write`,
`sfsSecStore_Read`, `sfsSecStore_Delete`, `sfsSecStore_GetSize`,
`sfsSecStore_GetEntries`, `sfsSecStore_Copy`, `sfsSecStore_Move`,
`sfsSecStore_ReInitSecStorage` and `sfsSecStore_SetRestoreHandler`.
Only the interface header is present in the source tree, so the engine
behind it is modelled here from the design specification: a hierarchical
path-addressed store of byte items above a backend that may be
unavailable, with a metadata tracker shadowing item sizes and a restore
event channel.
-/

set_option autoImplicit false

namespace SfsSecStore

/-- A path segment (one name between delimiters). -/
abbrev Seg := String

/-- A normalized path: the list of its segments, root being `[]`. -/
abbrev Path := List Seg

/-- Item content: a byte buffer, one `Nat` per byte. -/
abbrev Data := List Nat

/-- Result taxonomy of the interface header (`le_result_t` values the
header documents: `LE_NO_MEMORY`, `LE_UNAVAILABLE`, `LE_BAD_PARAMETER`,
`LE_FAULT`, `LE_NOT_FOUND`, `LE_OVERFLOW`; success is the absence of an
error). -/
inductive Err where
  | noMemory
  | unavailable
  | badParameter
  | fault
  | notFound
  | overflow
deriving DecidableEq, Repr

/-- Modelled from the spec: Path Model, maximum total path length
("total length bounded by a maximum (implementation-defined, e.g., 256
bytes)"). -/
def maxPathLength : Nat := 255

/-- Splits a character list into segments at the `/` delimiter,
accumulating the current segment in reverse. -/
def splitSegsAux : List Char → List Char → List Seg
  | acc, [] => [String.mk acc.reverse]
  | acc, c :: cs =>
    if c = '/' then String.mk acc.reverse :: splitSegsAux [] cs
    else splitSegsAux (c :: acc) cs

/-- Modelled from the spec: Path Model resolution. Rejects empty
segments; a parent-traversal segment `..` pops one level and is rejected
when it would escape the root. The accumulator holds the resolved
segments in reverse. -/
def resolveSegs : Path → List Seg → Option Path
  | acc, [] => some acc.reverse
  | acc, seg :: rest =>
    if seg = "" then none
    else if seg = ".." then
      match acc with
      | [] => none
      | _ :: acc2 => resolveSegs acc2 rest
    else resolveSegs (seg :: acc) rest

/-- Modelled from the spec: `validate(rawPath) -> NormalizedPath |
Error(BadPath)` of the Path Model (the missing engine validates every
path before use). Rejects the empty string, over-long paths, empty
segments and parent traversal escaping the root; a single `/` denotes
the storage root container. -/
def validate (raw : String) : Option Path :=
  match raw.data with
  | [] => none
  | c :: cs =>
    if maxPathLength < raw.data.length then none
    else if c = '/' then
      match cs with
      | [] => some []
      | _ :: _ => resolveSegs [] (splitSegsAux [] cs)
    else resolveSegs [] (splitSegsAux [] (c :: cs))

/-- `isUnder p q` holds when `q` is `p` itself or nested under `p`
(the Path Model's ancestor test, `isAncestorOf`). -/
def isUnder : Path → Path → Bool
  | [], _ => true
  | _ :: _, [] => false
  | a :: as, b :: bs => a = b && isUnder as bs

/-- First-match association lookup keyed by path. -/
def lookupEntry {α : Type} : List (Path × α) → Path → Option α
  | [], _ => none
  | (q, d) :: rest, p => if q = p then some d else lookupEntry rest p

/-- Replace the binding of `p` or append a new one. -/
def insertEntry {α : Type} : List (Path × α) → Path → α → List (Path × α)
  | [], p, d => [(p, d)]
  | (q, e) :: rest, p, d =>
    if q = p then (p, d) :: rest else (q, e) :: insertEntry rest p d

/-- Does anything exist at or under `p`? -/
def existsUnder {α : Type} (b : List (Path × α)) (p : Path) : Bool :=
  b.any (fun e => isUnder p e.1)

/-- Remove every entry at or under `p` (recursive delete). -/
def removeUnder {α : Type} (b : List (Path × α)) (p : Path) : List (Path × α) :=
  b.filter (fun e => !isUnder p e.1)

/-- Does `p` have entries strictly under it (a container with
children)? -/
def hasChildren {α : Type} (b : List (Path × α)) (p : Path) : Bool :=
  b.any (fun e => isUnder p e.1 && decide (p.length < e.1.length))

/-- Relative relocation used by copy: an entry at `q` under `srcP` goes
to the corresponding position under `destP`. -/
def relocate (srcP destP q : Path) : Path :=
  destP ++ q.drop srcP.length

/-- The entries a copy duplicates: every entry at or under `srcP`,
rebased under `destP`. -/
def copiedEntries {α : Type} (b : List (Path × α)) (srcP destP : Path) :
    List (Path × α) :=
  (b.filter (fun e => isUnder srcP e.1)).map (fun e => (relocate srcP destP e.1, e.2))

/-- Total number of bytes held in the backend. -/
def backendTotal (b : List (Path × Data)) : Nat :=
  (b.map (fun e => e.2.length)).sum

/-- Sum of the sizes of the backend items at or under `p`. -/
def backendSizeUnder (b : List (Path × Data)) (p : Path) : Nat :=
  ((b.filter (fun e => isUnder p e.1)).map (fun e => e.2.length)).sum

/-- Sum of the tracked meta-record sizes at or under `p` (what
`getSize` reports, "computed from Meta Records"). -/
def metaSizeUnder (m : List (Path × Nat)) (p : Path) : Nat :=
  ((m.filter (fun e => isUnder p e.1)).map (fun e => e.2)).sum

/-- Modelled from the spec: the engine state behind the header's
functions. `backend` is the path-keyed non-volatile store reached
through the Backend Adapter, `meta` the Metadata Tracker's records
(path and size), `avail` whether the backend is currently reachable,
`capacity` the backend's total space. -/
structure Store where
  backend : List (Path × Data)
  meta : List (Path × Nat)
  avail : Bool
  capacity : Nat
deriving DecidableEq, Repr

/-- Modelled from the spec: `sfsSecStore_Write` (the engine's
`write(path, bytes)`). Validates the path, fails `unavailable` when the
backend is down, `badParameter` when the path is an existing container
with children, `noMemory` when the backend lacks space; otherwise
replaces any previous data at the path and records the new size with
the tracker (`onWrite`). On failure the store is unchanged. -/
def write (s : Store) (raw : String) (d : Data) : Store × Option Err :=
  match validate raw with
  | none => (s, some Err.badParameter)
  | some p =>
    if s.avail = false then (s, some Err.unavailable)
    else if hasChildren s.backend p then (s, some Err.badParameter)
    else if s.capacity < backendTotal (insertEntry s.backend p d) then
      (s, some Err.noMemory)
    else
      ({ s with backend := insertEntry s.backend p d,
                meta := insertEntry s.meta p d.length }, none)

/-- Modelled from the spec: `sfsSecStore_Read` (the engine's
`read(path, bufferCapacity)`). The caller passes a buffer and its
capacity (the in/out size parameter); the result is the buffer
contents, the reported size and the error, mirroring the header's
`bufPtr`/`bufSizePtr` contract. On success the buffer holds the full
item and the size is the number of bytes read; on `overflow` (capacity
smaller than the stored size) and every other failure the buffer and
the size parameter are left unmodified. -/
def read (s : Store) (raw : String) (buf : Data) (cap : Nat) :
    Data × Nat × Option Err :=
  match validate raw with
  | none => (buf, cap, some Err.badParameter)
  | some p =>
    if s.avail = false then (buf, cap, some Err.unavailable)
    else
      match lookupEntry s.backend p with
      | none => (buf, cap, some Err.notFound)
      | some d =>
        if cap < d.length then (buf, cap, some Err.overflow)
        else (d, d.length, none)

/-- Modelled from the spec: `sfsSecStore_Delete` (the engine's
`delete(path)`). Fails `notFound` when nothing exists at or under the
path; otherwise removes the whole subtree from the backend and the
tracker (`onDelete`). -/
def delete (s : Store) (raw : String) : Store × Option Err :=
  match validate raw with
  | none => (s, some Err.badParameter)
  | some p =>
    if s.avail = false then (s, some Err.unavailable)
    else if existsUnder s.backend p = false then (s, some Err.notFound)
    else
      ({ s with backend := removeUnder s.backend p,
                meta := removeUnder s.meta p }, none)

/-- Modelled from the spec: `sfsSecStore_GetSize` (the engine's
`getSize(path)`). Fails `notFound` when the tracker has nothing at or
under the path; otherwise returns the sum of sizes of all items at and
under it, computed from the Meta Records. -/
def getSize (s : Store) (raw : String) : Nat × Option Err :=
  match validate raw with
  | none => (0, some Err.badParameter)
  | some p =>
    if s.avail = false then (0, some Err.unavailable)
    else if existsUnder s.meta p = false then (0, some Err.notFound)
    else (metaSizeUnder s.meta p, none)

/-- When `q` is strictly under `p`, the name of the immediate child of
`p` that `q` lies in (`none` otherwise). -/
def childSeg : Path → Path → Option Seg
  | [], [] => none
  | [], n :: _ => some n
  | _ :: _, [] => none
  | a :: as, b :: bs => if a = b then childSeg as bs else none

/-- Deduplicate a name list keeping first occurrences; `seen` holds the
names already emitted. -/
def dedupAux : List Seg → List Seg → List Seg
  | _, [] => []
  | seen, n :: rest =>
    if n ∈ seen then dedupAux seen rest
    else n :: dedupAux (n :: seen) rest

/-- The immediate-child names of `p` in backend listing order, each
once (the Backend Adapter's `listChildren`, one level, not
recursive). -/
def childNames {α : Type} (b : List (Path × α)) (p : Path) : List Seg :=
  dedupAux [] (b.filterMap (fun e => childSeg p e.1))

/-- Modelled from the spec: `sfsSecStore_GetEntries` (the engine's
`getEntries(path, visit)`). Lists the immediate children of the path
through the Backend Adapter and feeds each name, in listing order, to
the visitor `f` (the header's `getEntryFunc` with its context folded as
state `a`). An empty container yields zero invocations and success. -/
def getEntries {σ : Type} (s : Store) (raw : String) (f : σ → Seg → σ) (a : σ) :
    σ × Option Err :=
  match validate raw with
  | none => (a, some Err.badParameter)
  | some p =>
    if s.avail = false then (a, some Err.unavailable)
    else ((childNames s.backend p).foldl f a, none)

/-- Modelled from the spec: `sfsSecStore_Copy` (the engine's
`copy(dest, src)`). Validates both paths; fails `unavailable` when the
backend is down; fails `fault` — before any backend mutation — when the
destination already has an item or a child (destination-must-be-empty
invariant); otherwise copies every item at or under the source to the
corresponding relative position under the destination and updates the
tracker (`onCopy`). -/
def copy (s : Store) (dRaw sRaw : String) : Store × Option Err :=
  match validate dRaw, validate sRaw with
  | some dP, some sP =>
    if s.avail = false then (s, some Err.unavailable)
    else if existsUnder s.backend dP then (s, some Err.fault)
    else
      ({ s with backend := s.backend ++ copiedEntries s.backend sP dP,
                meta := s.meta ++ copiedEntries s.meta sP dP }, none)
  | _, _ => (s, some Err.badParameter)

/-- Modelled from the spec: `sfsSecStore_Move` (the engine's
`move(dest, src)`): performs `copy` then `delete(src)`. If the copy
fails, the source is left untouched and the delete is not attempted; if
the copy succeeds but the delete fails, the operation reports
`fault`. -/
def move (s : Store) (dRaw sRaw : String) : Store × Option Err :=
  match copy s dRaw sRaw with
  | (s1, none) =>
    match delete s1 sRaw with
    | (s2, none) => (s2, none)
    | (s2, some _) => (s2, some Err.fault)
  | (s1, some e) => (s1, some e)

/-- Modelled from the spec: the Metadata Tracker's record set as
recomputed from the actual backend contents (every item's stored
size). -/
def rebuiltRecords (b : List (Path × Data)) : List (Path × Nat) :=
  b.map (fun e => (e.1, e.2.length))

/-- Modelled from the spec: `Metadata Tracker.rebuild()` — walks the
backend from the root recomputing every Meta Record from actual stored
sizes, discarding all prior records; when the backend is unavailable it
aborts and surfaces the failure instead of committing a partial
tree. -/
def rebuild (s : Store) : Except Err (List (Path × Nat)) :=
  if s.avail = false then Except.error Err.unavailable
  else Except.ok (rebuiltRecords s.backend)

/-- Modelled from the spec: `sfsSecStore_ReInitSecStorage` (the
engine's `reInitSecStorage()`): calls the tracker's `rebuild()`. On
success only the Meta Records are replaced; on failure the previous
records are left in place and the failure is surfaced. -/
def reInit (s : Store) : Store × Option Err :=
  match rebuild s with
  | Except.error e => (s, some e)
  | Except.ok m => ({ s with meta := m }, none)

/-- Modelled from the spec: the Restore Event Channel — the list of
registered restore handlers, in registration order. `H` is the handler
(callback) type. -/
structure Channel (H : Type) where
  handlers : List H
deriving DecidableEq, Repr

/-- A channel with no registered handlers. -/
def emptyChannel {H : Type} : Channel H := ⟨[]⟩

/-- Modelled from the spec: `sfsSecStore_SetRestoreHandler` — registers
a callback to be invoked whenever a restore event fires and returns an
opaque handler reference. -/
def setRestoreHandler {H : Type} (c : Channel H) (h : H) : Channel H × Nat :=
  ({ handlers := c.handlers ++ [h] }, c.handlers.length)

/-- Modelled from the spec: firing a restore event invokes the
registered handlers sequentially; the result is the invocation list, in
order. -/
def fireRestore {H : Type} (c : Channel H) : List H :=
  c.handlers

/-- Register a whole list of handlers one after the other. -/
def registerAll {H : Type} (c : Channel H) : List H → Channel H
  | [] => c
  | h :: hs => registerAll (setRestoreHandler c h).1 hs

/-! ## Concrete stores used to exercise the theorems -/

/-- A small populated store: two certificate items under `/certs`, an
available backend and ample capacity. -/
def sampleStore : Store :=
  { backend := [(["certs", "dev.pem"], [1, 2, 3]), (["certs", "ca.pem"], [9, 9])],
    meta := [(["certs", "dev.pem"], 3), (["certs", "ca.pem"], 2)],
    avail := true, capacity := 1000 }

/-- `sampleStore` after a successful `write "/a" [7, 8]`. -/
def sampleAfterWrite : Store :=
  { backend := [(["certs", "dev.pem"], [1, 2, 3]), (["certs", "ca.pem"], [9, 9]),
                (["a"], [7, 8])],
    meta := [(["certs", "dev.pem"], 3), (["certs", "ca.pem"], 2), (["a"], 2)],
    avail := true, capacity := 1000 }

/-- `sampleStore` after a successful `delete "/certs"`. -/
def sampleDeleted : Store :=
  { backend := [], meta := [], avail := true, capacity := 1000 }

/-- `sampleStore` with stale (drifted) meta records. -/
def sampleStale : Store :=
  { sampleStore with meta := [(["bogus"], 77)] }

/-- `sampleStore` with an unavailable backend. -/
def sampleDown : Store :=
  { sampleStore with avail := false }

/-- `sampleStore` after `copy "/backup" "/certs/dev.pem"` succeeded. -/
def sampleMovedMid : Store :=
  { backend := [(["certs", "dev.pem"], [1, 2, 3]), (["certs", "ca.pem"], [9, 9]),
                (["backup"], [1, 2, 3])],
    meta := [(["certs", "dev.pem"], 3), (["certs", "ca.pem"], 2), (["backup"], 3)],
    avail := true, capacity := 1000 }

/-- `sampleMovedMid` after the follow-up `delete "/certs/dev.pem"`, i.e.
`sampleStore` after `move "/backup" "/certs/dev.pem"`. -/
def sampleMoved : Store :=
  { backend := [(["certs", "ca.pem"], [9, 9]), (["backup"], [1, 2, 3])],
    meta := [(["certs", "ca.pem"], 2), (["backup"], 3)],
    avail := true, capacity := 1000 }

/-! ## Helper lemmas -/

@[simp]
theorem isUnder_refl (p : Path) : isUnder p p = true := by
  induction p with
  | nil => rfl
  | cons a as ih => simp [isUnder, ih]

theorem isUnder_iff (p q : Path) : isUnder p q = true ↔ ∃ t, q = p ++ t := by
  induction p generalizing q with
  | nil => simp [isUnder]
  | cons a as ih =>
    cases q with
    | nil => simp [isUnder]
    | cons b bs =>
      simp only [isUnder, Bool.and_eq_true, decide_eq_true_eq, ih, List.cons_append,
        List.cons.injEq]
      constructor
      · rintro ⟨rfl, t, rfl⟩; exact ⟨t, rfl, rfl⟩
      · rintro ⟨t, rfl, rfl⟩; exact ⟨rfl, t, rfl⟩

@[simp]
theorem lookup_insert {α : Type} (b : List (Path × α)) (p : Path) (d : α) :
    lookupEntry (insertEntry b p d) p = some d := by
  induction b with
  | nil => simp [insertEntry, lookupEntry]
  | cons e rest ih =>
    obtain ⟨q, v⟩ := e
    by_cases h : q = p
    · simp [insertEntry, lookupEntry, h]
    · simp [insertEntry, lookupEntry, h, ih]

theorem existsUnder_of_lookup {α : Type} (b : List (Path × α)) (p : Path) (d : α)
    (h : lookupEntry b p = some d) : existsUnder b p = true := by
  induction b with
  | nil => simp [lookupEntry] at h
  | cons e rest ih =>
    obtain ⟨q, v⟩ := e
    by_cases hq : q = p
    · subst hq
      simp [existsUnder, List.any_cons]
    · simp only [lookupEntry, if_neg hq] at h
      simp only [existsUnder, List.any_cons, Bool.or_eq_true]
      exact Or.inr (ih h)

theorem lookup_none_of_not_existsUnder {α : Type} (b : List (Path × α)) (p : Path)
    (h : existsUnder b p = false) : lookupEntry b p = none := by
  cases hl : lookupEntry b p with
  | none => rfl
  | some d => rw [existsUnder_of_lookup b p d hl] at h; cases h

theorem lookup_append {α : Type} (b c : List (Path × α)) (p : Path)
    (h : lookupEntry b p = none) : lookupEntry (b ++ c) p = lookupEntry c p := by
  induction b with
  | nil => simp
  | cons e rest ih =>
    obtain ⟨q, v⟩ := e
    by_cases hq : q = p
    · simp [lookupEntry, hq] at h
    · simp only [lookupEntry, if_neg hq] at h
      simp only [List.cons_append, lookupEntry, if_neg hq]
      exact ih h

theorem relocate_self_iff (sP dP q : Path) (h : isUnder sP q = true) :
    relocate sP dP q = dP ↔ q = sP := by
  obtain ⟨t, rfl⟩ := (isUnder_iff sP q).mp h
  unfold relocate
  rw [List.drop_left]
  constructor
  · intro hd
    have ht : t = [] := by simpa using congrArg List.length hd
    simp [ht]
  · intro hq
    have ht : t = [] := by simpa using congrArg List.length hq
    simp [ht]

theorem lookup_copied {α : Type} (b : List (Path × α)) (sP dP : Path) :
    lookupEntry (copiedEntries b sP dP) dP = lookupEntry b sP := by
  induction b with
  | nil => simp [copiedEntries, lookupEntry]
  | cons e rest ih =>
    obtain ⟨q, v⟩ := e
    cases hu : isUnder sP q with
    | true =>
      by_cases hq : q = sP
      · have hrel : relocate sP dP q = dP := (relocate_self_iff sP dP q hu).mpr hq
        simp only [copiedEntries, List.filter_cons, hu, if_true, List.map_cons]
        simp only [lookupEntry]
        rw [if_pos hrel, if_pos hq]
      · have hrel : relocate sP dP q ≠ dP := fun hc =>
          hq ((relocate_self_iff sP dP q hu).mp hc)
        simp only [copiedEntries, List.filter_cons, hu, if_true, List.map_cons] at ih ⊢
        simp only [lookupEntry, if_neg hrel, if_neg hq]
        exact ih
    | false =>
      have hq : q ≠ sP := by
        intro hc; subst hc; simp at hu
      simp only [copiedEntries, List.filter_cons, hu, Bool.false_eq_true, if_false] at ih ⊢
      simp only [lookupEntry, if_neg hq]
      exact ih

theorem lookup_removeUnder_of_under {α : Type} (b : List (Path × α)) (p q : Path)
    (h : isUnder p q = true) : lookupEntry (removeUnder b p) q = none := by
  induction b with
  | nil => rfl
  | cons e rest ih =>
    obtain ⟨r, v⟩ := e
    cases hr : isUnder p r with
    | true =>
      simp only [removeUnder, List.filter_cons, hr, Bool.not_true, Bool.false_eq_true,
        if_false] at ih ⊢
      exact ih
    | false =>
      have hrq : r ≠ q := by
        intro hc; subst hc; rw [h] at hr; cases hr
      simp only [removeUnder, List.filter_cons, hr, Bool.not_false, if_true] at ih ⊢
      simp only [lookupEntry, if_neg hrq]
      exact ih

theorem lookup_removeUnder_of_not_under {α : Type} (b : List (Path × α)) (p q : Path)
    (h : isUnder p q = false) :
    lookupEntry (removeUnder b p) q = lookupEntry b q := by
  induction b with
  | nil => rfl
  | cons e rest ih =>
    obtain ⟨r, v⟩ := e
    cases hr : isUnder p r with
    | true =>
      have hrq : r ≠ q := by
        intro hc; subst hc; rw [h] at hr; cases hr
      simp only [removeUnder, List.filter_cons, hr, Bool.not_true, Bool.false_eq_true,
        if_false] at ih ⊢
      simp only [lookupEntry, if_neg hrq]
      exact ih
    | false =>
      simp only [removeUnder, List.filter_cons, hr, Bool.not_false, if_true] at ih ⊢
      by_cases hrq : r = q
      · simp [lookupEntry, hrq]
      · simp only [lookupEntry, if_neg hrq]
        exact ih

theorem existsUnder_removeUnder {α : Type} (b : List (Path × α)) (p : Path) :
    existsUnder (removeUnder b p) p = false := by
  induction b with
  | nil => rfl
  | cons e rest ih =>
    obtain ⟨r, v⟩ := e
    cases hr : isUnder p r with
    | true =>
      simp only [removeUnder, List.filter_cons, hr, Bool.not_true, Bool.false_eq_true,
        if_false] at ih ⊢
      exact ih
    | false =>
      simp only [removeUnder, List.filter_cons, hr, Bool.not_false, if_true] at ih ⊢
      simp only [existsUnder, List.any_cons, hr, Bool.false_or] at ih ⊢
      exact ih

theorem metaSizeUnder_rebuilt (b : List (Path × Data)) (p : Path) :
    metaSizeUnder (rebuiltRecords b) p = backendSizeUnder b p := by
  induction b with
  | nil => rfl
  | cons e rest ih =>
    obtain ⟨q, v⟩ := e
    cases hu : isUnder p q with
    | true =>
      simp only [metaSizeUnder, backendSizeUnder, rebuiltRecords, List.map_cons,
        List.filter_cons, hu, if_true, List.sum_cons] at ih ⊢
      omega
    | false =>
      simp only [metaSizeUnder, backendSizeUnder, rebuiltRecords, List.map_cons,
        List.filter_cons, hu, Bool.false_eq_true, if_false] at ih ⊢
      exact ih

theorem mem_dedupAux (l : List Seg) : ∀ (seen : List Seg) (x : Seg),
    x ∈ dedupAux seen l ↔ x ∈ l ∧ x ∉ seen := by
  induction l with
  | nil => intro seen x; simp [dedupAux]
  | cons n rest ih =>
    intro seen x
    by_cases hn : n ∈ seen
    · rw [dedupAux, if_pos hn, ih]
      simp only [List.mem_cons]
      constructor
      · rintro ⟨hx, hs⟩; exact ⟨Or.inr hx, hs⟩
      · rintro ⟨hx | hx, hs⟩
        · exact absurd (hx ▸ hn) hs
        · exact ⟨hx, hs⟩
    · rw [dedupAux, if_neg hn]
      simp only [List.mem_cons, ih]
      constructor
      · rintro (rfl | ⟨hx, hs⟩)
        · exact ⟨Or.inl rfl, hn⟩
        · exact ⟨Or.inr hx, fun hc => hs (Or.inr hc)⟩
      · rintro ⟨rfl | hx, hs⟩
        · exact Or.inl rfl
        · by_cases hxn : x = n
          · exact Or.inl hxn
          · exact Or.inr ⟨hx, by simp [List.mem_cons, hxn, hs]⟩

theorem nodup_dedupAux (l : List Seg) : ∀ seen : List Seg, (dedupAux seen l).Nodup := by
  induction l with
  | nil => intro seen; simp [dedupAux]
  | cons n rest ih =>
    intro seen
    by_cases hn : n ∈ seen
    · rw [dedupAux, if_pos hn]; exact ih seen
    · rw [dedupAux, if_neg hn]
      refine List.nodup_cons.mpr ⟨?_, ih (n :: seen)⟩
      intro hc
      exact ((mem_dedupAux rest (n :: seen) n).mp hc).2 (List.mem_cons_self n seen)

theorem childSeg_iff (p : Path) : ∀ (q : Path) (n : Seg),
    childSeg p q = some n ↔ ∃ t, q = p ++ n :: t := by
  induction p with
  | nil =>
    intro q n
    cases q with
    | nil => simp [childSeg]
    | cons b bs =>
      simp only [childSeg, Option.some.injEq, List.nil_append, List.cons.injEq]
      constructor
      · rintro rfl; exact ⟨bs, rfl, rfl⟩
      · rintro ⟨t, rfl, rfl⟩; rfl
  | cons a as ih =>
    intro q n
    cases q with
    | nil => simp [childSeg]
    | cons b bs =>
      by_cases hab : a = b
      · subst hab
        simpa [childSeg] using ih bs n
      · simp only [childSeg, if_neg hab, List.cons_append, List.cons.injEq]
        constructor
        · intro hc; exact absurd hc (by simp)
        · rintro ⟨t, hc, -⟩; exact (hab hc.symm).elim

theorem mem_childNames {α : Type} (b : List (Path × α)) (p : Path) (n : Seg) :
    n ∈ childNames b p ↔ ∃ e ∈ b, childSeg p e.1 = some n := by
  unfold childNames
  rw [mem_dedupAux]
  simp only [List.not_mem_nil, not_false_eq_true, and_true, List.mem_filterMap]

theorem nodup_childNames {α : Type} (b : List (Path × α)) (p : Path) :
    (childNames b p).Nodup :=
  nodup_dedupAux _ []

/-! ## Elimination lemmas for the engine operations -/

theorem write_ok_elim (s : Store) (raw : String) (d : Data) (s1 : Store)
    (hw : write s raw d = (s1, none)) :
    ∃ p, validate raw = some p ∧ s.avail = true ∧
      hasChildren s.backend p = false ∧
      s1 = { s with backend := insertEntry s.backend p d,
                    meta := insertEntry s.meta p d.length } := by
  unfold write at hw
  split at hw
  · simp at hw
  next p hv =>
    split_ifs at hw with h1 h2 h3
    · simp at hw
    · simp at hw
    · simp at hw
    · obtain ⟨hs, -⟩ := Prod.mk.injEq .. ▸ hw
      exact ⟨p, hv, by simpa using h1, by simpa using h2, hs.symm⟩

theorem delete_ok_elim (s : Store) (raw : String) (s1 : Store)
    (hd : delete s raw = (s1, none)) :
    ∃ p, validate raw = some p ∧ s.avail = true ∧
      existsUnder s.backend p = true ∧
      s1 = { s with backend := removeUnder s.backend p,
                    meta := removeUnder s.meta p } := by
  unfold delete at hd
  split at hd
  · simp at hd
  next p hv =>
    split_ifs at hd with h1 h2
    · simp at hd
    · simp at hd
    · obtain ⟨hs, -⟩ := Prod.mk.injEq .. ▸ hd
      exact ⟨p, hv, by simpa using h1, by simpa using h2, hs.symm⟩

theorem copy_ok_elim (s : Store) (dRaw sRaw : String) (s1 : Store)
    (hc : copy s dRaw sRaw = (s1, none)) :
    ∃ dP sP, validate dRaw = some dP ∧ validate sRaw = some sP ∧
      s.avail = true ∧ existsUnder s.backend dP = false ∧
      s1 = { s with backend := s.backend ++ copiedEntries s.backend sP dP,
                    meta := s.meta ++ copiedEntries s.meta sP dP } := by
  unfold copy at hc
  split at hc
  next dP sP hvd hvs =>
    split_ifs at hc with h1 h2
    · simp at hc
    · simp at hc
    · obtain ⟨hs, -⟩ := Prod.mk.injEq .. ▸ hc
      exact ⟨dP, sP, hvd, hvs, by simpa using h1, by simpa using h2, hs.symm⟩
  next => simp at hc

theorem copy_err_elim (s : Store) (dRaw sRaw : String) (s1 : Store) (e : Err)
    (hc : copy s dRaw sRaw = (s1, some e)) : s1 = s := by
  unfold copy at hc
  split at hc
  next dP sP hvd hvs =>
    split_ifs at hc <;> simp_all
  next => simp_all

theorem read_eval (s : Store) (raw : String) (p : Path) (buf : Data) (cap : Nat)
    (hv : validate raw = some p) (hav : s.avail = true) :
    read s raw buf cap =
      match lookupEntry s.backend p with
      | none => (buf, cap, some Err.notFound)
      | some d =>
        if cap < d.length then (buf, cap, some Err.overflow)
        else (d, d.length, none) := by
  unfold read
  rw [hv]
  simp [hav]

theorem getSize_eval (s : Store) (raw : String) (p : Path)
    (hv : validate raw = some p) (hav : s.avail = true) :
    getSize s raw =
      if existsUnder s.meta p = false then (0, some Err.notFound)
      else (metaSizeUnder s.meta p, none) := by
  unfold getSize
  rw [hv]
  simp [hav]

/-! ## Claim theorems -/

/-- C1: for every valid path and every byte buffer, a successful
`write(p, b)` followed by `read(p, cap)` with `cap ≥ len(b)` succeeds
and returns exactly the bytes `b` with length `len(b)` (write/read
round-trip). -/
theorem write_read_roundtrip (s : Store) (raw : String) (d : Data) (s1 : Store)
    (buf : Data) (cap : Nat)
    (hw : write s raw d = (s1, none)) (hcap : d.length ≤ cap) :
    read s1 raw buf cap = (d, d.length, none) := by
  obtain ⟨p, hv, hav, -, hs1⟩ := write_ok_elim s raw d s1 hw
  have hav1 : s1.avail = true := by rw [hs1]; exact hav
  have hlook : lookupEntry s1.backend p = some d := by
    rw [hs1]; exact lookup_insert s.backend p d
  rw [read_eval s1 raw p buf cap hv hav1, hlook]
  simp [Nat.not_lt.mpr hcap]

/-- Witness for C1: writing `[7, 8]` at `/a` and reading it back with
capacity 2 yields exactly `[7, 8]`. -/
theorem write_read_roundtrip_witness :
    read sampleAfterWrite "/a" [] 2 = ([7, 8], 2, none) :=
  write_read_roundtrip sampleStore "/a" [7, 8] sampleAfterWrite [] 2
    (by decide) (by decide)

/-- C7: for every path whose stored item has size `s` and every
capacity `cap < s`, `read(p, cap)` returns `Overflow` and writes
nothing into the caller's buffer (the buffer and the size parameter are
returned unmodified). -/
theorem read_overflow (s : Store) (raw : String) (p : Path) (d : Data)
    (buf : Data) (cap : Nat)
    (hv : validate raw = some p) (hav : s.avail = true)
    (hitem : lookupEntry s.backend p = some d) (hcap : cap < d.length) :
    read s raw buf cap = (buf, cap, some Err.overflow) := by
  rw [read_eval s raw p buf cap hv hav, hitem]
  simp [hcap]

/-- Witness for C7: reading the 3-byte item at `/certs/dev.pem` with
capacity 2 overflows and leaves the caller buffer `[5]` unmodified. -/
theorem read_overflow_witness :
    read sampleStore "/certs/dev.pem" [5] 2 = ([5], 2, some Err.overflow) :=
  read_overflow sampleStore "/certs/dev.pem" ["certs", "dev.pem"] [1, 2, 3]
    [5] 2 (by decide) rfl (by decide) (by decide)

/-- C10: on success `read` updates the in/out size parameter from the
caller-supplied capacity to the number of bytes actually read, which
equals the stored item's size (which fits the capacity); on any failure
the buffer and the reported size are the caller's originals, never a
partial count. -/
theorem read_size_contract (s : Store) (raw : String) (buf : Data) (cap : Nat) :
    ((read s raw buf cap).2.2 = none →
      ∃ p d, validate raw = some p ∧ lookupEntry s.backend p = some d ∧
        (read s raw buf cap).1 = d ∧ (read s raw buf cap).2.1 = d.length ∧
        d.length ≤ cap) ∧
    ((read s raw buf cap).2.2 ≠ none →
      (read s raw buf cap).1 = buf ∧ (read s raw buf cap).2.1 = cap) := by
  unfold read
  split
  · exact ⟨fun h => by simp at h, fun h => ⟨rfl, rfl⟩⟩
  next p hv =>
    split_ifs with h1
    · exact ⟨fun h => by simp at h, fun h => ⟨rfl, rfl⟩⟩
    · split
      next hl => exact ⟨fun h => by simp at h, fun h => ⟨rfl, rfl⟩⟩
      next d hl =>
        split_ifs with h2
        · exact ⟨fun h => by simp at h, fun h => ⟨rfl, rfl⟩⟩
        · exact ⟨fun h => ⟨p, d, hv, hl, rfl, rfl, Nat.not_lt.mp h2⟩,
                 fun h => absurd rfl h⟩

/-- Witness for C10: a failed read (absent path) hands back the
caller's buffer and capacity untouched. -/
theorem read_size_contract_witness :
    (read sampleStore "/nope" [4] 9).1 = [4] ∧
    (read sampleStore "/nope" [4] 9).2.1 = 9 :=
  (read_size_contract sampleStore "/nope" [4] 9).2 (by decide)

/-- C6: after a successful `delete(p)`, reading `p` and every
descendant of `p` returns `NotFound` — the whole subtree is removed —
and a subsequent `getSize(p)` fails `NotFound`. -/
theorem delete_subtree (s : Store) (raw : String) (p : Path) (s1 : Store)
    (hv : validate raw = some p) (hd : delete s raw = (s1, none)) :
    (∀ (raw2 : String) (q : Path) (buf : Data) (cap : Nat),
      validate raw2 = some q → isUnder p q = true →
      read s1 raw2 buf cap = (buf, cap, some Err.notFound)) ∧
    getSize s1 raw = (0, some Err.notFound) := by
  obtain ⟨p2, hv2, hav, -, hs1⟩ := delete_ok_elim s raw s1 hd
  rw [hv] at hv2
  have hpp : p2 = p := (Option.some.inj hv2).symm
  rw [hpp] at hs1
  have hav1 : s1.avail = true := by rw [hs1]; exact hav
  constructor
  · intro raw2 q buf cap hvq hq
    have hlook : lookupEntry s1.backend q = none := by
      rw [hs1]; exact lookup_removeUnder_of_under s.backend p q hq
    rw [read_eval s1 raw2 q buf cap hvq hav1, hlook]
  · have hex : existsUnder s1.meta p = false := by
      rw [hs1]; exact existsUnder_removeUnder s.meta p
    rw [getSize_eval s1 raw p hv hav1, if_pos hex]

/-- Witness for C6: after `delete "/certs"`, reading the former
descendant `/certs/dev.pem` fails `NotFound` and `getSize "/certs"`
fails `NotFound`. -/
theorem delete_subtree_witness :
    read sampleDeleted "/certs/dev.pem" [5] 9 = ([5], 9, some Err.notFound) ∧
    getSize sampleDeleted "/certs" = (0, some Err.notFound) := by
  have h := delete_subtree sampleStore "/certs" ["certs"] sampleDeleted
    (by decide) (by decide)
  exact ⟨h.1 "/certs/dev.pem" ["certs", "dev.pem"] [5] 9 (by decide) (by decide),
         h.2⟩

/-- C2: after `reInitSecStorage()` succeeds, only the Meta Records have
changed (item data, availability and capacity are untouched), the call
is idempotent, and `getSize(root)` equals the sum of the actual backend
item sizes under root, regardless of prior tracker staleness. -/
theorem reInit_drift_repair (s : Store) (s1 : Store)
    (hr : reInit s = (s1, none)) :
    s1.backend = s.backend ∧ s1.avail = s.avail ∧ s1.capacity = s.capacity ∧
    reInit s1 = (s1, none) ∧
    metaSizeUnder s1.meta [] = backendSizeUnder s.backend [] ∧
    (s.backend ≠ [] → getSize s1 "/" = (backendSizeUnder s.backend [], none)) := by
  cases hav : s.avail with
  | false => unfold reInit rebuild at hr; rw [hav] at hr; simp at hr
  | true =>
    unfold reInit rebuild at hr
    rw [hav] at hr
    simp only [Bool.true_eq_false, if_false] at hr
    obtain ⟨hs, -⟩ := Prod.mk.injEq .. ▸ hr
    have hbk : s1.backend = s.backend := by rw [← hs]
    have hmeta : s1.meta = rebuiltRecords s.backend := by rw [← hs]
    have hav1 : s1.avail = true := by rw [← hs]
    have hcap : s1.capacity = s.capacity := by rw [← hs]
    have hsize : metaSizeUnder s1.meta [] = backendSizeUnder s.backend [] := by
      rw [hmeta]; exact metaSizeUnder_rebuilt s.backend []
    have hidem : reInit s1 = (s1, none) := by
      rw [← hs]
      rfl
    refine ⟨hbk, hav1, hcap, hidem, hsize, ?_⟩
    intro hne
    have hvr : validate "/" = some [] := by decide
    have hex : existsUnder s1.meta [] = true := by
      rw [hmeta]
      cases hb : s.backend with
      | nil => exact absurd hb hne
      | cons e rest => simp [rebuiltRecords, existsUnder, isUnder]
    rw [getSize_eval s1 "/" [] hvr hav1, if_neg (by simp [hex]), hsize]

/-- Witness for C2: repairing the drifted tracker of `sampleStale`
makes `getSize` at the root report the 5 actual backend bytes. -/
theorem reInit_drift_repair_witness :
    getSize { sampleStale with meta := rebuiltRecords sampleStale.backend } "/"
      = (5, none) := by
  have h := reInit_drift_repair sampleStale
    { sampleStale with meta := rebuiltRecords sampleStale.backend } (by decide)
  exact h.2.2.2.2.2 (by decide)

/-- C3: when the backend is unavailable, `rebuild()` (invoked via
`reInitSecStorage`) aborts with the failure surfaced to the caller and
the store — in particular every previous Meta Record — is left
unchanged: no partially-built tree is committed. -/
theorem rebuild_unavailable_aborts (s : Store) (h : s.avail = false) :
    rebuild s = Except.error Err.unavailable ∧
    reInit s = (s, some Err.unavailable) := by
  constructor
  · simp [rebuild, h]
  · simp [reInit, rebuild, h]

/-- Witness for C3: re-initializing `sampleDown` (backend down) fails
`unavailable` and leaves the store, meta records included, as it
was. -/
theorem rebuild_unavailable_aborts_witness :
    rebuild sampleDown = Except.error Err.unavailable ∧
    reInit sampleDown = (sampleDown, some Err.unavailable) :=
  rebuild_unavailable_aborts sampleDown rfl

/-- C4: `copy(dest, src)` fails — with the designated
destination-not-empty outcome, `fault` in the header's taxonomy —
whenever the destination already has an item or a child; the check
happens before any backend mutation, so the store is returned
completely unchanged and no destination data is overwritten. -/
theorem copy_dest_not_empty (s : Store) (dRaw sRaw : String) (dP sP : Path)
    (hvd : validate dRaw = some dP) (hvs : validate sRaw = some sP)
    (hav : s.avail = true) (hne : existsUnder s.backend dP = true) :
    copy s dRaw sRaw = (s, some Err.fault) := by
  unfold copy
  rw [hvd, hvs]
  simp [hav, hne]

/-- Witness for C4: copying `/backup` onto the non-empty `/certs`
fails `fault` and leaves the store unchanged. -/
theorem copy_dest_not_empty_witness :
    copy sampleStore "/certs" "/backup" = (sampleStore, some Err.fault) :=
  copy_dest_not_empty sampleStore "/certs" "/backup" ["certs"] ["backup"]
    (by decide) (by decide) rfl (by decide)

/-- C5: `move(dest, src)` is equivalent to `copy(dest, src)` followed
by `delete(src)`: when both steps succeed, `move` produces exactly the
copy-then-delete result, the source reads back `NotFound`, and the
destination yields bytes identical to the source's original content;
when the copy step fails, the store — the source in particular — is
left untouched and the delete step is not attempted (`move` returns the
copy failure on the original store). -/
theorem move_copy_delete (s : Store) (dRaw sRaw : String) (dP sP : Path) (b : Data)
    (hvd : validate dRaw = some dP) (hvs : validate sRaw = some sP)
    (hnu : isUnder sP dP = false) (hitem : lookupEntry s.backend sP = some b) :
    (∀ s1 s2, copy s dRaw sRaw = (s1, none) → delete s1 sRaw = (s2, none) →
      move s dRaw sRaw = (s2, none) ∧
      (∀ (buf : Data) (cap : Nat),
        read s2 sRaw buf cap = (buf, cap, some Err.notFound)) ∧
      (∀ (buf : Data) (cap : Nat), b.length ≤ cap →
        read s2 dRaw buf cap = (b, b.length, none))) ∧
    (∀ s1 e, copy s dRaw sRaw = (s1, some e) →
      s1 = s ∧ move s dRaw sRaw = (s, some e)) := by
  constructor
  · intro s1 s2 hc hd
    obtain ⟨dP2, sP2, hvd2, hvs2, hav, hdempty, hs1⟩ := copy_ok_elim s dRaw sRaw s1 hc
    rw [hvd] at hvd2
    rw [hvs] at hvs2
    rw [(Option.some.inj hvd2).symm] at hs1 hdempty
    rw [(Option.some.inj hvs2).symm] at hs1
    obtain ⟨sP3, hvs3, hav1, -, hs2⟩ := delete_ok_elim s1 sRaw s2 hd
    rw [hvs] at hvs3
    rw [(Option.some.inj hvs3).symm] at hs2
    have hmove : move s dRaw sRaw = (s2, none) := by
      unfold move
      simp only [hc, hd]
    have hav2 : s2.avail = true := by rw [hs2]; exact hav1
    refine ⟨hmove, ?_, ?_⟩
    · intro buf cap
      have hlook : lookupEntry s2.backend sP = none := by
        rw [hs2]
        exact lookup_removeUnder_of_under s1.backend sP sP (isUnder_refl sP)
      rw [read_eval s2 sRaw sP buf cap hvs hav2, hlook]
    · intro buf cap hcap
      have hnone : lookupEntry s.backend dP = none :=
        lookup_none_of_not_existsUnder s.backend dP hdempty
      have hlook : lookupEntry s2.backend dP = some b := by
        rw [hs2]
        show lookupEntry (removeUnder s1.backend sP) dP = some b
        rw [lookup_removeUnder_of_not_under s1.backend sP dP hnu, hs1]
        show lookupEntry (s.backend ++ copiedEntries s.backend sP dP) dP = some b
        rw [lookup_append _ _ dP hnone, lookup_copied s.backend sP dP]
        exact hitem
      rw [read_eval s2 dRaw dP buf cap hvd hav2, hlook]
      simp [Nat.not_lt.mpr hcap]
  · intro s1 e hc
    have hs1 : s1 = s := copy_err_elim s dRaw sRaw s1 e hc
    refine ⟨hs1, ?_⟩
    unfold move
    rw [hc, hs1]

/-- Witness for C5: moving `/certs/dev.pem` to `/backup` leaves the
source `NotFound` and the destination reading back `[1, 2, 3]`. -/
theorem move_copy_delete_witness :
    read sampleMoved "/certs/dev.pem" [] 9 = ([], 9, some Err.notFound) ∧
    read sampleMoved "/backup" [] 9 = ([1, 2, 3], 3, none) := by
  have h := move_copy_delete sampleStore "/backup" "/certs/dev.pem"
    ["backup"] ["certs", "dev.pem"] [1, 2, 3]
    (by decide) (by decide) (by decide) (by decide)
  have h1 := h.1 sampleMovedMid sampleMoved (by decide) (by decide)
  exact ⟨h1.2.1 [] 9, h1.2.2 [] 9 (by decide)⟩

/-- C8: `getEntries(p, visit)` invokes the visitor exactly once per
immediate child of `p` — the visited names are duplicate-free and are
exactly the names `n` with an entry at `p ++ n :: t` — one level only,
in listing order (a fold over `childNames`); on an empty container it
succeeds with zero invocations. -/
theorem getEntries_children {σ : Type} (s : Store) (raw : String) (p : Path)
    (f : σ → Seg → σ) (a : σ)
    (hv : validate raw = some p) (hav : s.avail = true) :
    getEntries s raw f a = ((childNames s.backend p).foldl f a, none) ∧
    (childNames s.backend p).Nodup ∧
    (∀ n, n ∈ childNames s.backend p ↔
      ∃ e ∈ s.backend, ∃ t, e.1 = p ++ n :: t) ∧
    (childNames s.backend p = [] → getEntries s raw f a = (a, none)) := by
  have hg : getEntries s raw f a = ((childNames s.backend p).foldl f a, none) := by
    unfold getEntries
    rw [hv]
    simp [hav]
  refine ⟨hg, nodup_childNames s.backend p, ?_, ?_⟩
  · intro n
    rw [mem_childNames]
    constructor
    · rintro ⟨e, he, hcs⟩
      exact ⟨e, he, (childSeg_iff p e.1 n).mp hcs⟩
    · rintro ⟨e, he, t, ht⟩
      exact ⟨e, he, (childSeg_iff p e.1 n).mpr ⟨t, ht⟩⟩
  · intro hnil
    rw [hg, hnil]
    rfl

/-- Witness for C8: enumerating `/certs` visits `dev.pem` then
`ca.pem`, once each, in listing order. -/
theorem getEntries_children_witness :
    getEntries sampleStore "/certs" (fun l n => l ++ [n]) ([] : List Seg)
      = (["dev.pem", "ca.pem"], none) := by
  have h := getEntries_children sampleStore "/certs" ["certs"]
    (fun l n => l ++ [n]) ([] : List Seg) (by decide) rfl
  rw [h.1]
  rfl

/-- C9: registering a sequence of handlers via `setRestoreHandler` and
firing the restore event once invokes exactly the registered handlers,
each exactly once, in registration order (the invocation list is the
prior handler list followed by the newly registered sequence). -/
theorem restore_handlers_in_order {H : Type} (c : Channel H) (hs : List H) :
    fireRestore (registerAll c hs) = c.handlers ++ hs := by
  induction hs generalizing c with
  | nil => simp [registerAll, fireRestore]
  | cons h t ih =>
    rw [registerAll, ih]
    simp [setRestoreHandler]

end SfsSecStore
